import Mathlib

/-!
Verification of the streaming-join utilities and the rewrite-cycle driver of
the `arrow-datafusion` repository fragment.

The Rust sources are shallowly embedded: machine integers become `Nat`
(the relevant index arithmetic never overflows in the modelled scenarios),
nullable Arrow array slots become `Option Nat`, fallible functions return
`Except String _`, and trait-object physical expressions become plain Lean
functions from a row of scalar values to a fallible scalar value.
-/

namespace DataFusion

/-! ## Part 1: `append_probe_indices_in_order`
(`physical-plan/src/joins/sliding_window_join_utils.rs`)

The Rust function walks `build_indices.iter().zip(probe_indices.iter())`
with a mutable `prev_index`, appending to two array builders; missing probe
positions in `prev_index..probe_index` get a null build index, and after the
loop positions `prev_index..count_probe_batch` are padded likewise.  The
embedding below produces the very same sequences by structural recursion on
the zipped list, the builder appends becoming list concatenation; the final
padding is the base case of the recursion (the code after the Rust loop). -/

/-- Loop body of `append_probe_indices_in_order`: consumes the zipped
`(maybe_build_index, maybe_probe_index)` pairs, carrying `prev_index`.
Also performs the trailing `prev_index..count_probe_batch` padding of the
Rust function once the zipped input is exhausted. -/
def appendLoop (countProbeBatch : Nat) :
    List (Option Nat × Option Nat) → Nat →
    Except String (List (Option Nat) × List Nat)
  | [], prevIndex =>
    -- `for val in prev_index..count_probe_batch { append null / val }`
    .ok ((List.range' prevIndex (countProbeBatch - prevIndex)).map (fun _ => none),
         List.range' prevIndex (countProbeBatch - prevIndex))
  | (some buildIndex, some probeIndex) :: rest, prevIndex =>
    match appendLoop countProbeBatch rest (probeIndex + 1) with
    | .error e => .error e
    | .ok (newBuild, newProbe) =>
      -- `for val in prev_index..probe_index { append null / val }` then the
      -- current `(build_index, probe_index)` pair.
      .ok ((List.range' prevIndex (probeIndex - prevIndex)).map (fun _ => none)
             ++ some buildIndex :: newBuild,
           List.range' prevIndex (probeIndex - prevIndex) ++ probeIndex :: newProbe)
  | _ :: _, _ =>
    -- `(maybe_build_index, maybe_probe_index)` not both `Some`:
    .error "Error on probe indices calculation"

/-- `append_probe_indices_in_order(build_indices, probe_indices,
count_probe_batch)`: returns the new `(build, probe)` index arrays, an
internal error when a zipped slot is null. -/
def appendProbeIndicesInOrder (buildIndices probeIndices : List (Option Nat))
    (countProbeBatch : Nat) :
    Except String (List (Option Nat) × List Nat) :=
  appendLoop countProbeBatch (buildIndices.zip probeIndices) 0

/-- `appendLoop` fails exactly when some zipped slot is null. -/
theorem appendLoop_error_iff (c : Nat) (l : List (Option Nat × Option Nat))
    (prev : Nat) :
    (∃ e, appendLoop c l prev = .error e) ↔
      ∃ pr ∈ l, pr.1 = none ∨ pr.2 = none := by
  induction l generalizing prev with
  | nil => simp [appendLoop]
  | cons hd tl ih =>
    obtain ⟨ob, op⟩ := hd
    match ob, op with
    | some bi, some pi =>
      rcases h : appendLoop c tl (pi + 1) with e | pair
      · simp only [appendLoop, h]
        constructor
        · intro _
          have : ∃ e, appendLoop c tl (pi + 1) = .error e := ⟨e, h⟩
          obtain ⟨pr, hpr, hn⟩ := (ih (pi + 1)).mp this
          exact ⟨pr, List.mem_cons_of_mem _ hpr, hn⟩
        · intro _; exact ⟨e, rfl⟩
      · simp only [appendLoop, h]
        constructor
        · rintro ⟨e, he⟩; cases he
        · rintro ⟨pr, hpr, hn⟩
          rcases List.mem_cons.mp hpr with h1 | h1
          · subst h1; rcases hn with hn | hn <;> cases hn
          · have : ∃ e, appendLoop c tl (pi + 1) = .error e :=
              (ih (pi + 1)).mpr ⟨pr, h1, hn⟩
            obtain ⟨e, he⟩ := this
            rw [he] at h; cases h
    | none, op =>
      simp only [appendLoop]
      exact ⟨fun _ => ⟨(none, op), List.mem_cons_self _ _, Or.inl rfl⟩,
             fun _ => ⟨"Error on probe indices calculation", rfl⟩⟩
    | some bi, none =>
      simp only [appendLoop]
      exact ⟨fun _ => ⟨(some bi, none), List.mem_cons_self _ _, Or.inr rfl⟩,
             fun _ => ⟨"Error on probe indices calculation", rfl⟩⟩

/-- C8: `append_probe_indices_in_order` returns an internal error iff some
position of the zipped input arrays holds a null build index or a null probe
index; on fully null-free inputs it never errors. -/
theorem appendProbeIndicesInOrder_error_iff_null
    (buildIndices probeIndices : List (Option Nat)) (count : Nat) :
    ((∃ e, appendProbeIndicesInOrder buildIndices probeIndices count =
        Except.error e) ↔
      ∃ pr ∈ buildIndices.zip probeIndices, pr.1 = none ∨ pr.2 = none) ∧
    ((∀ x ∈ buildIndices, x ≠ none) → (∀ x ∈ probeIndices, x ≠ none) →
      ∃ out, appendProbeIndicesInOrder buildIndices probeIndices count =
        Except.ok out) := by
  constructor
  · exact appendLoop_error_iff count (buildIndices.zip probeIndices) 0
  · intro hb hp
    rcases h : appendProbeIndicesInOrder buildIndices probeIndices count with e | out
    · have herr : ∃ e, appendProbeIndicesInOrder buildIndices probeIndices count =
          .error e := ⟨e, h⟩
      obtain ⟨pr, hpr, hn⟩ :=
        (appendLoop_error_iff count (buildIndices.zip probeIndices) 0).mp herr
      obtain ⟨h1, h2⟩ := List.of_mem_zip hpr
      rcases hn with hn | hn
      · exact absurd hn (hb _ h1)
      · exact absurd hn (hp _ h2)
    · exact ⟨out, rfl⟩

/-- Witness for `appendProbeIndicesInOrder_error_iff_null` at a concrete
input holding a null probe index. -/
theorem appendProbeIndicesInOrder_error_iff_null_witness :
    ∃ e, appendProbeIndicesInOrder [some 1] [none] 3 = Except.error e :=
  (appendProbeIndicesInOrder_error_iff_null [some 1] [none] 3).1.mpr
    ⟨(some 1, none), by decide, Or.inr rfl⟩

/-- C7: the Right-join index padding scenario: `build_ids=[10,20,30,40]`,
`probe_ids=[1,1,2,4]`, `count=7` yields `probe_out=[0,1,1,2,3,4,5,6]` and
`build_out=[null,10,20,30,null,40,null,null]`. -/
theorem appendProbeIndicesInOrder_scenario :
    appendProbeIndicesInOrder [some 10, some 20, some 30, some 40]
        [some 1, some 1, some 2, some 4] 7 =
      Except.ok ([none, some 10, some 20, some 30, none, some 40, none, none],
        [0, 1, 1, 2, 3, 4, 5, 6]) := by
  rfl

/-- C1 counterexample: on the null-free input `build_ids=[10,20,30,40]`,
`probe_ids=[1,1,2,4]`, `count=7` the function succeeds, but its probe-index
output `[0,1,1,2,3,4,5,6]` is not strictly increasing and does not cover
`[0,7)` exactly once (the value `1` occurs twice), refuting the claim as
stated. -/
theorem appendProbeIndicesInOrder_strict_increase_fails :
    appendProbeIndicesInOrder [some 10, some 20, some 30, some 40]
        [some 1, some 1, some 2, some 4] 7 =
      Except.ok ([none, some 10, some 20, some 30, none, some 40, none, none],
        [0, 1, 1, 2, 3, 4, 5, 6]) ∧
    ¬ (List.Chain' (· < ·) [0, 1, 1, 2, 3, 4, 5, 6] ∧
        ∀ v < 7, List.count v [0, 1, 1, 2, 3, 4, 5, 6] = 1) := by
  refine ⟨by rfl, ?_⟩
  rintro ⟨-, hcount⟩
  exact absurd (hcount 1 (by norm_num)) (by decide)

/-- On null-free pairs whose probe components are non-decreasing and below
`c`, `appendLoop` succeeds and its probe output is non-decreasing, bounded
below by `prev - 1`, and contains every value of `[prev, c)`. -/
theorem appendLoop_sorted (c : Nat) (pairs : List (Nat × Nat)) :
    ∀ prev : Nat,
    List.Chain' (fun a b : Nat × Nat => a.2 ≤ b.2) pairs →
    (∀ pr ∈ pairs, pr.2 < c) →
    (∀ pr ∈ pairs.head?, prev ≤ pr.2 + 1) →
    ∃ nb np,
      appendLoop c (pairs.map (fun pr => (some pr.1, some pr.2))) prev =
        .ok (nb, np) ∧
      List.Sorted (· ≤ ·) np ∧ (∀ x ∈ np, prev ≤ x + 1) ∧
      (∀ v, prev ≤ v → v < c → v ∈ np) := by
  induction pairs with
  | nil =>
    intro prev _ _ _
    refine ⟨_, _, rfl, ?_, ?_, ?_⟩
    · exact (List.pairwise_lt_range' prev (c - prev)).imp le_of_lt
    · intro x hx
      have := (List.mem_range'_1.mp hx).1
      omega
    · intro v h1 h2
      rw [List.mem_range'_1]
      omega
  | cons hd rest ih =>
    obtain ⟨b0, p0⟩ := hd
    intro prev hchain hlt hfirst
    have hprev : prev ≤ p0 + 1 := hfirst (b0, p0) rfl
    have hp0c : p0 < c := hlt (b0, p0) (List.mem_cons_self _ _)
    obtain ⟨hhd, hrest⟩ := List.chain'_cons'.mp hchain
    obtain ⟨nb, np, hok, hsorted, hge, hcov⟩ :=
      ih (p0 + 1) hrest (fun pr hpr => hlt pr (List.mem_cons_of_mem _ hpr))
        (fun pr hpr => by have := hhd pr hpr; omega)
    refine ⟨(List.range' prev (p0 - prev)).map (fun _ => none) ++ some b0 :: nb,
      List.range' prev (p0 - prev) ++ p0 :: np, ?_, ?_, ?_, ?_⟩
    · simp only [List.map_cons, appendLoop, hok]
    · rw [List.Sorted, List.pairwise_append]
      refine ⟨(List.pairwise_lt_range' prev (p0 - prev)).imp le_of_lt, ?_, ?_⟩
      · rw [List.pairwise_cons]
        exact ⟨fun b hb => by have := hge b hb; omega, hsorted⟩
      · intro x hx y hy
        have hx' := List.mem_range'_1.mp hx
        rcases List.mem_cons.mp hy with h | h
        · omega
        · have := hge y h; omega
    · intro x hx
      rcases List.mem_append.mp hx with h | h
      · have := (List.mem_range'_1.mp h).1; omega
      · rcases List.mem_cons.mp h with h | h
        · omega
        · have := hge x h; omega
    · intro v h1 h2
      rcases Nat.lt_trichotomy v p0 with h | h | h
      · refine List.mem_append.mpr (Or.inl ?_)
        rw [List.mem_range'_1]
        omega
      · exact List.mem_append.mpr (Or.inr (List.mem_cons.mpr (Or.inl h)))
      · exact List.mem_append.mpr
          (Or.inr (List.mem_cons.mpr (Or.inr (hcov v (by omega) h2))))

/-- C1 (amended): for null-free parallel input arrays whose probe indices
are non-decreasing and all below `count`, the probe-index output of the
Right-join index adjustment is non-decreasing and contains every value of
`[0, count)` (a probe index matched several times occurs several times, so
strict increase and exactly-once coverage do not hold in general). -/
theorem appendProbeIndicesInOrder_monotone_coverage
    (buildIds probeIds : List Nat) (count : Nat)
    (hlen : buildIds.length = probeIds.length)
    (hsorted : List.Chain' (· ≤ ·) probeIds)
    (hlt : ∀ v ∈ probeIds, v < count) :
    ∃ newBuild newProbe,
      appendProbeIndicesInOrder (buildIds.map some) (probeIds.map some) count =
        .ok (newBuild, newProbe) ∧
      List.Sorted (· ≤ ·) newProbe ∧ ∀ v < count, v ∈ newProbe := by
  have hzip : (buildIds.map some).zip (probeIds.map some) =
      (buildIds.zip probeIds).map (fun pr => (some pr.1, some pr.2)) := by
    rw [List.zip_map]; rfl
  have hsnd : (buildIds.zip probeIds).map Prod.snd = probeIds :=
    List.map_snd_zip _ _ (le_of_eq hlen.symm)
  have hchain : List.Chain' (fun a b : Nat × Nat => a.2 ≤ b.2)
      (buildIds.zip probeIds) := by
    rw [← hsnd] at hsorted
    exact (List.chain'_map Prod.snd).mp hsorted
  obtain ⟨nb, np, hok, h1, h2, h3⟩ :=
    appendLoop_sorted count (buildIds.zip probeIds) 0 hchain
      (fun pr hpr => hlt pr.2 (List.of_mem_zip hpr).2)
      (fun pr _ => Nat.zero_le _)
  refine ⟨nb, np, ?_, h1, fun v hv => h3 v (Nat.zero_le v) hv⟩
  rw [appendProbeIndicesInOrder, hzip]
  exact hok

/-- Witness for `appendProbeIndicesInOrder_monotone_coverage`, at the
concrete input `build_ids=[5,6]`, `probe_ids=[0,2]`, `count=4`. -/
theorem appendProbeIndicesInOrder_monotone_coverage_witness :
    ∃ newBuild newProbe,
      appendProbeIndicesInOrder [some 5, some 6] [some 0, some 2] 4 =
        .ok (newBuild, newProbe) ∧
      List.Sorted (· ≤ ·) newProbe ∧ ∀ v < 4, v ∈ newProbe :=
  appendProbeIndicesInOrder_monotone_coverage [5, 6] [0, 2] 4 rfl
    (by norm_num [List.chain'_cons, List.chain'_singleton]) (by decide)

/-! ## Part 2: `PruningJoinHashMap`
(`physical-plan/src/joins/stream_join_utils.rs`)

The `RawTable<(u64, u64)>` of hash/tail-row-id entries becomes an
association list (usage guarantees one entry per hash; theorems that need
uniqueness take a `Nodup` hypothesis on the keys), allocation capacity an
explicit `Nat`, and the `VecDeque<u64>` chain list a `List Nat`. -/

/-- The pruning join hash map: `map` stores hash value to last row index,
`next` stores indices in a chained-list data structure; `mapCapacity` is the
allocation capacity of the `RawTable` behind `map`. -/
structure PruningJoinHashMap where
  map : List (Nat × Nat)
  mapCapacity : Nat
  next : List Nat

/-- Modelled from the spec: `RawTable::shrink_to` is hashbrown code outside
this repository; per §4.1 a capacity reduction "must never shrink below
`len`", so the table is resized to hold `max(len, min_size)` entries. -/
def shrinkTo (t : PruningJoinHashMap) (minSize : Nat) : PruningJoinHashMap :=
  { t with mapCapacity := max t.map.length minSize }

/-- `PruningJoinHashMap::shrink_if_necessary(scale_factor)`. -/
def shrinkIfNecessary (t : PruningJoinHashMap) (scaleFactor : Nat) :
    PruningJoinHashMap :=
  let capacity := t.mapCapacity
  if capacity > scaleFactor * t.map.length then
    shrinkTo t ((capacity * (scaleFactor - 1)) / scaleFactor)
  else
    t

/-- `RawTable::remove_entry(hash, |(h, _)| hash == h)`: removes one entry
whose hash component matches. -/
def removeEntry (m : List (Nat × Nat)) (hashValue : Nat) : List (Nat × Nat) :=
  match m with
  | [] => []
  | (h, tl) :: rest =>
    if h = hashValue then rest else (h, tl) :: removeEntry rest hashValue

/-- `PruningJoinHashMap::prune_hash_values(prune_length, deleting_offset,
shrink_factor)`: drains the first `prune_length` chain entries, removes the
hash entries whose tail row id is below `prune_length + deleting_offset`,
then shrinks if necessary. -/
def pruneHashValues (t : PruningJoinHashMap) (pruneLength : Nat)
    (deletingOffset : Nat) (shrinkFactor : Nat) : PruningJoinHashMap :=
  let next := t.next.drop pruneLength
  let removableKeys :=
    (t.map.filter (fun e => e.2 < pruneLength + deletingOffset)).map
      (fun e => e.1)
  let map := removableKeys.foldl removeEntry t.map
  shrinkIfNecessary { t with map := map, next := next } shrinkFactor

/-- Hash lookup in the modelled `RawTable`: the tail row id stored for a
hash value, if present. -/
def findTail (m : List (Nat × Nat)) (hashValue : Nat) : Option Nat :=
  match m with
  | [] => none
  | (h, tl) :: rest => if h = hashValue then some tl else findTail rest hashValue

/-- C4: `shrink_if_necessary` leaves the table alone unless
`capacity > scale_factor × len`; when triggered it requests capacity
`capacity × (scale_factor - 1) / scale_factor`; and for `scale_factor ≥ 2`
the capacity never ends up below `len`. -/
theorem shrinkIfNecessary_spec (t : PruningJoinHashMap) (s : Nat)
    (hs : 2 ≤ s) (hcap : t.map.length ≤ t.mapCapacity) :
    (¬ t.mapCapacity > s * t.map.length → shrinkIfNecessary t s = t) ∧
    (t.mapCapacity > s * t.map.length →
      shrinkIfNecessary t s = shrinkTo t (t.mapCapacity * (s - 1) / s)) ∧
    t.map.length ≤ (shrinkIfNecessary t s).mapCapacity := by
  refine ⟨fun h => by simp [shrinkIfNecessary, h],
          fun h => by simp [shrinkIfNecessary, h], ?_⟩
  by_cases h : t.mapCapacity > s * t.map.length
  · simp [shrinkIfNecessary, h, shrinkTo]
  · simpa [shrinkIfNecessary, h] using hcap

/-- Witness for `shrinkIfNecessary_spec` on a concrete one-entry table with
capacity 10 and scale factor 4. -/
theorem shrinkIfNecessary_spec_witness :
    (¬ (PruningJoinHashMap.mk [(7, 0)] 10 [0]).mapCapacity >
        4 * (PruningJoinHashMap.mk [(7, 0)] 10 [0]).map.length →
      shrinkIfNecessary (PruningJoinHashMap.mk [(7, 0)] 10 [0]) 4 =
        PruningJoinHashMap.mk [(7, 0)] 10 [0]) ∧
    ((PruningJoinHashMap.mk [(7, 0)] 10 [0]).mapCapacity >
        4 * (PruningJoinHashMap.mk [(7, 0)] 10 [0]).map.length →
      shrinkIfNecessary (PruningJoinHashMap.mk [(7, 0)] 10 [0]) 4 =
        shrinkTo (PruningJoinHashMap.mk [(7, 0)] 10 [0])
          ((PruningJoinHashMap.mk [(7, 0)] 10 [0]).mapCapacity * (4 - 1) / 4)) ∧
    (PruningJoinHashMap.mk [(7, 0)] 10 [0]).map.length ≤
      (shrinkIfNecessary (PruningJoinHashMap.mk [(7, 0)] 10 [0]) 4).mapCapacity :=
  shrinkIfNecessary_spec (PruningJoinHashMap.mk [(7, 0)] 10 [0]) 4
    (by norm_num) (by norm_num)

theorem removeEntry_sublist (m : List (Nat × Nat)) (h : Nat) :
    (removeEntry m h).Sublist m := by
  induction m with
  | nil => simp [removeEntry]
  | cons hd rest ih =>
    obtain ⟨h0, t0⟩ := hd
    rw [removeEntry]
    split
    · exact List.sublist_cons_self _ _
    · exact List.Sublist.cons₂ _ ih

theorem findTail_eq_none_of_not_mem (m : List (Nat × Nat)) (h : Nat)
    (hmem : h ∉ m.map Prod.fst) : findTail m h = none := by
  induction m with
  | nil => rfl
  | cons hd rest ih =>
    obtain ⟨h0, t0⟩ := hd
    simp only [List.map_cons, List.mem_cons] at hmem
    push_neg at hmem
    rw [findTail, if_neg (fun he => hmem.1 he.symm)]
    exact ih hmem.2

theorem findTail_removeEntry_self (m : List (Nat × Nat)) (h : Nat)
    (hnodup : (m.map Prod.fst).Nodup) : findTail (removeEntry m h) h = none := by
  induction m with
  | nil => rfl
  | cons hd rest ih =>
    obtain ⟨h0, t0⟩ := hd
    simp only [List.map_cons, List.nodup_cons] at hnodup
    rw [removeEntry]
    split
    · next heq => subst heq; exact findTail_eq_none_of_not_mem rest _ hnodup.1
    · next hne => rw [findTail, if_neg hne]; exact ih hnodup.2

theorem findTail_removeEntry_ne (m : List (Nat × Nat)) (h h' : Nat)
    (hne : h' ≠ h) : findTail (removeEntry m h) h' = findTail m h' := by
  induction m with
  | nil => rfl
  | cons hd rest ih =>
    obtain ⟨h0, t0⟩ := hd
    rw [removeEntry]
    split
    · next heq =>
      subst heq
      rw [findTail, if_neg (fun hcontra => hne hcontra.symm)]
    · next => rw [findTail, findTail]; split <;> simp [ih]

theorem findTail_foldl_removeEntry (ks : List Nat) :
    ∀ m : List (Nat × Nat), (m.map Prod.fst).Nodup → ∀ h : Nat,
    findTail (ks.foldl removeEntry m) h =
      if h ∈ ks then none else findTail m h := by
  induction ks with
  | nil => intro m _ h; simp
  | cons k ks ih =>
    intro m hnodup h
    have hnodup' : ((removeEntry m k).map Prod.fst).Nodup :=
      ((removeEntry_sublist m k).map Prod.fst).nodup hnodup
    rw [List.foldl_cons, ih (removeEntry m k) hnodup' h]
    by_cases hk : h = k
    · subst hk
      simp [findTail_removeEntry_self m h hnodup]
    · rw [findTail_removeEntry_ne m k h hk]
      simp [List.mem_cons, hk]

theorem findTail_eq_some_iff (m : List (Nat × Nat)) (h tl : Nat)
    (hnodup : (m.map Prod.fst).Nodup) :
    findTail m h = some tl ↔ (h, tl) ∈ m := by
  induction m with
  | nil => simp [findTail]
  | cons hd rest ih =>
    obtain ⟨h0, t0⟩ := hd
    simp only [List.map_cons, List.nodup_cons] at hnodup
    rw [findTail]
    split
    · next heq =>
      subst heq
      simp only [List.mem_cons, Option.some_inj]
      constructor
      · rintro rfl; exact Or.inl rfl
      · rintro (hc | hc)
        · cases hc; rfl
        · exact absurd (List.mem_map_of_mem Prod.fst hc) hnodup.1
    · next hne =>
      rw [ih hnodup.2]
      simp only [List.mem_cons]
      constructor
      · exact Or.inr
      · rintro (hc | hc)
        · cases hc; exact absurd rfl hne
        · exact hc

theorem shrinkIfNecessary_preserves (t : PruningJoinHashMap) (s : Nat) :
    (shrinkIfNecessary t s).map = t.map ∧ (shrinkIfNecessary t s).next = t.next := by
  rw [shrinkIfNecessary]
  split <;> simp [shrinkTo]

/-- The hash keys removed by `prune_hash_values` are exactly those whose
tail row id lies below the pruning threshold. -/
theorem mem_removableKeys_iff (m : List (Nat × Nat)) (thr h : Nat) :
    h ∈ (m.filter (fun e => e.2 < thr)).map (fun e => e.1) ↔
      ∃ tl, (h, tl) ∈ m ∧ tl < thr := by
  simp only [List.mem_map, List.mem_filter, decide_eq_true_eq]
  constructor
  · rintro ⟨⟨h0, tl⟩, ⟨hmem, hlt⟩, rfl⟩
    exact ⟨tl, hmem, hlt⟩
  · rintro ⟨tl, hmem, hlt⟩
    exact ⟨(h, tl), ⟨hmem, hlt⟩, rfl⟩

/-- C5: after `prune_hash_values(prune_length, deleting_offset, _)` on a
table with pairwise distinct hash keys, the first `prune_length` entries of
the chain list are gone, a hash key is absent iff it was absent before or
its tail row id was strictly below `deleting_offset + prune_length`, and
every other hash entry keeps its tail row id. -/
theorem pruneHashValues_spec (t : PruningJoinHashMap)
    (pruneLength deletingOffset shrinkFactor : Nat)
    (hnodup : (t.map.map Prod.fst).Nodup)
    (hlen : pruneLength ≤ t.next.length) :
    (pruneHashValues t pruneLength deletingOffset shrinkFactor).next =
      t.next.drop pruneLength ∧
    (∀ h,
      findTail (pruneHashValues t pruneLength deletingOffset shrinkFactor).map h
          = none ↔
        (findTail t.map h = none ∨
          ∃ tl, findTail t.map h = some tl ∧ tl < deletingOffset + pruneLength)) ∧
    (∀ h tl, findTail t.map h = some tl →
      deletingOffset + pruneLength ≤ tl →
      findTail (pruneHashValues t pruneLength deletingOffset shrinkFactor).map h
        = some tl) := by
  have hmap : (pruneHashValues t pruneLength deletingOffset shrinkFactor).map =
      ((t.map.filter (fun e => e.2 < pruneLength + deletingOffset)).map
        (fun e => e.1)).foldl removeEntry t.map :=
    (shrinkIfNecessary_preserves _ _).1
  have hnext : (pruneHashValues t pruneLength deletingOffset shrinkFactor).next =
      t.next.drop pruneLength :=
    (shrinkIfNecessary_preserves _ _).2
  have hfold := findTail_foldl_removeEntry
    ((t.map.filter (fun e => e.2 < pruneLength + deletingOffset)).map
      (fun e => e.1)) t.map hnodup
  refine ⟨hnext, ?_, ?_⟩
  · intro h
    rw [hmap, hfold h]
    by_cases hk : h ∈ (t.map.filter
        (fun e => e.2 < pruneLength + deletingOffset)).map (fun e => e.1)
    · obtain ⟨tl, hmem, hlt⟩ := (mem_removableKeys_iff _ _ _).mp hk
      have hsome := (findTail_eq_some_iff t.map h tl hnodup).mpr hmem
      simp only [if_pos hk, true_iff]
      exact Or.inr ⟨tl, hsome, by omega⟩
    · rw [if_neg hk]
      constructor
      · exact Or.inl
      · rintro (hc | ⟨tl, hsome, hlt⟩)
        · exact hc
        · have hmem := (findTail_eq_some_iff t.map h tl hnodup).mp hsome
          exact absurd ((mem_removableKeys_iff _ _ _).mpr
            ⟨tl, hmem, by omega⟩) hk
  · intro h tl hsome hge
    rw [hmap, hfold h]
    rw [if_neg ?_]
    · exact hsome
    · intro hk
      obtain ⟨tl', hmem', hlt'⟩ := (mem_removableKeys_iff _ _ _).mp hk
      have hsome' := (findTail_eq_some_iff t.map h tl' hnodup).mpr hmem'
      rw [hsome] at hsome'
      cases hsome'
      omega

/-- Witness for `pruneHashValues_spec`: a two-entry table where the key
with tail row id 0 is pruned and the key with tail row id 5 survives. -/
theorem pruneHashValues_spec_witness :
    (pruneHashValues (PruningJoinHashMap.mk [(1, 0), (2, 5)] 4 [0, 0, 0])
        2 1 4).next = [0, 0, 0].drop 2 ∧
    (∀ h,
      findTail (pruneHashValues (PruningJoinHashMap.mk [(1, 0), (2, 5)] 4
          [0, 0, 0]) 2 1 4).map h = none ↔
        (findTail [(1, 0), (2, 5)] h = none ∨
          ∃ tl, findTail [(1, 0), (2, 5)] h = some tl ∧ tl < 1 + 2)) ∧
    (∀ h tl, findTail [(1, 0), (2, 5)] h = some tl → 1 + 2 ≤ tl →
      findTail (pruneHashValues (PruningJoinHashMap.mk [(1, 0), (2, 5)] 4
          [0, 0, 0]) 2 1 4).map h = some tl) :=
  pruneHashValues_spec (PruningJoinHashMap.mk [(1, 0), (2, 5)] 4 [0, 0, 0])
    2 1 4 (by decide) (by norm_num)

/-! ## Part 3: pruning anti/semi indices
(`physical-plan/src/joins/stream_join_utils.rs`)

Both Rust functions build a boolean bitmap over `0..prune_length` marking
position `v` iff `visited_rows` contains `v + deleted_offset`, then collect
the unmarked (anti) or marked (semi) positions in order; the bitmap
round-trip is exactly a filter of `0..prune_length` on that predicate.
The `HashSet<usize>` is modelled as the list of its elements. -/

/-- `get_pruning_anti_indices(prune_length, deleted_offset, visited_rows)`:
the positions `v` of `[0, prune_length)` with `v + deleted_offset` not
visited. -/
def getPruningAntiIndices (pruneLength deletedOffset : Nat)
    (visitedRows : List Nat) : List Nat :=
  (List.range pruneLength).filter
    (fun v => ¬ (v + deletedOffset) ∈ visitedRows)

/-- `get_pruning_semi_indices(prune_length, deleted_offset, visited_rows)`:
the positions `v` of `[0, prune_length)` with `v + deleted_offset`
visited. -/
def getPruningSemiIndices (pruneLength deletedOffset : Nat)
    (visitedRows : List Nat) : List Nat :=
  (List.range pruneLength).filter
    (fun v => (v + deletedOffset) ∈ visitedRows)

/-- C6: for every pruning length, offset and visited-row set, the anti and
semi index sets are disjoint, and together they are a permutation of
`[0, prune_length)` — a disjoint union covering it exactly. -/
theorem pruning_anti_semi_duality (pruneLength deletedOffset : Nat)
    (visitedRows : List Nat) :
    (∀ v, ¬ (v ∈ getPruningAntiIndices pruneLength deletedOffset visitedRows ∧
        v ∈ getPruningSemiIndices pruneLength deletedOffset visitedRows)) ∧
    (getPruningSemiIndices pruneLength deletedOffset visitedRows ++
        getPruningAntiIndices pruneLength deletedOffset visitedRows).Perm
      (List.range pruneLength) := by
  constructor
  · intro v
    rintro ⟨ha, hs⟩
    rw [getPruningAntiIndices, List.mem_filter] at ha
    rw [getPruningSemiIndices, List.mem_filter] at hs
    simp only [decide_eq_true_eq] at ha hs
    exact ha.2 hs.2
  · have := List.filter_append_perm
      (fun v => (v + deletedOffset) ∈ visitedRows) (List.range pruneLength)
    rw [getPruningSemiIndices, getPruningAntiIndices]
    refine List.Perm.trans (List.Perm.append_left _ (List.Perm.of_eq ?_)) this
    apply List.filter_congr
    intro v _
    simp

/-! ## Part 4: filter-expression intervals
(`sliding_window_join_utils.rs` and `stream_join_utils.rs`)

The columnar machinery is embedded as follows.  A scalar value is
`Option Int` (`none` is the typed null `ScalarValue`); a `RecordBatch` is a
list of rows of scalars; a `dyn PhysicalExpr` trait object is its
evaluation function on one row of the batch it is meant for (the functions
under study evaluate expressions only on one-row slices); `SortOptions`,
`PhysicalSortExpr`, `Interval`, `IntervalBound` and `SortedFilterExpr`
mirror their Rust originals field by field.  Functions that mutate
`&mut [SortedFilterExpr]` instead return the updated list. -/

/-- A scalar value; `none` is the null scalar of any datatype. -/
abbrev Value := Option Int

/-- One row of a record batch. -/
abbrev Row := List Value

/-- A record batch: rows of scalar values. -/
abbrev Batch := List Row

/-- `RecordBatch::slice(start, len)` (clamped like the iterator model;
the Rust call panics when out of bounds, which no modelled claim hits). -/
def batchSlice (batch : Batch) (start len : Nat) : Batch :=
  (batch.drop start).take len

/-- `datafusion_common::JoinSide`. -/
inductive JoinSide where
  | left
  | right
deriving DecidableEq, Repr

/-- `JoinSide::negate`. -/
def JoinSide.negate : JoinSide → JoinSide
  | .left => .right
  | .right => .left

/-- `arrow_schema::SortOptions`. -/
structure SortOptions where
  descending : Bool
  nullsFirst : Bool
deriving DecidableEq, Repr

/-- A physical expression over one row of its batch, modelling a
`dyn PhysicalExpr` by its (fallible) evaluation function. -/
abbrev PhysExpr := Row → Except String Value

/-- `PhysicalSortExpr { expr, options }`. -/
structure PhysicalSortExpr where
  expr : PhysExpr
  options : SortOptions

/-- Modelled from the spec: `IntervalBound` lives in
`datafusion_physical_expr::intervals`, which is not under `src/`.  It pairs
a scalar with a boolean flag; per spec §4.4 and §9 ("the probe side uses
closed=false (open) for both endpoints") the boolean passed to
`IntervalBound::new` is interpreted as the closed-exclusivity flag, so
`false` denotes a closed-exclusive (open) endpoint. -/
structure IntervalBound where
  value : Value
  closedExclusive : Bool
deriving DecidableEq, Repr

/-- `IntervalBound::new(value, flag)`. -/
def IntervalBound.new (value : Value) (flag : Bool) : IntervalBound :=
  ⟨value, flag⟩

/-- Modelled from the spec: `Interval` (same missing module as
`IntervalBound`) is a pair of scalar bounds (§3). -/
structure Interval where
  lower : IntervalBound
  upper : IntervalBound
deriving DecidableEq, Repr

/-- `Interval::new(lower, upper)`. -/
def Interval.new (lower upper : IntervalBound) : Interval :=
  ⟨lower, upper⟩

/-- `SortedFilterExpr` (`stream_join_utils.rs`): the ordered filter
expression, its intermediate-schema rewrite, the live interval and the
graph node index. -/
structure SortedFilterExpr where
  filterExpr : PhysicalSortExpr
  intermediateBatchFilterExpr : PhysExpr
  interval : Interval
  nodeIndex : Nat

/-- `SortedFilterExpr::order()`. -/
def SortedFilterExpr.order (sfe : SortedFilterExpr) : SortOptions :=
  sfe.filterExpr.options

/-- `SortedFilterExpr::set_interval(interval)`. -/
def SortedFilterExpr.setInterval (sfe : SortedFilterExpr) (interval : Interval) :
    SortedFilterExpr :=
  { sfe with interval := interval }

/-- `ColumnIndex { index, side }`. -/
structure ColumnIndex where
  index : Nat
  side : JoinSide
deriving DecidableEq, Repr

/-- `JoinFilter` restricted to what the modelled functions consult: its
column-index table (§3: `column_indices[i]` names the source side and
column of intermediate-schema position `i`). -/
structure JoinFilter where
  columnIndices : List ColumnIndex

/-- Modelled from the spec: `get_filter_representation_of_build_side`
(`joins/utils.rs`, not under `src/`) projects one row of a side's batch
onto the intermediate schema positions belonging to that side, in
column-index order (§3, glossary "intermediate schema"). -/
def filterRepRow (filter : JoinFilter) (side : JoinSide) (row : Row) : Row :=
  (filter.columnIndices.filter (fun ci => ci.side = side)).map
    (fun ci => row.getD ci.index none)

/-- Modelled from the spec: the batch-level intermediate representation,
projecting every row with `filterRepRow`. -/
def getFilterRepresentationOfBuildSide (filter : JoinFilter) (batch : Batch)
    (side : JoinSide) : Batch :=
  batch.map (filterRepRow filter side)

/-- Modelled from the spec: `ScalarValue`'s ordered comparison
(`datafusion_common`, not under `src/`) on same-type scalars; the null
scalar sorts below every non-null value, as in the derived `Option`
ordering the implementation uses. -/
def scalarLt (a b : Value) : Bool :=
  match a, b with
  | none, none => false
  | none, some _ => true
  | some _, none => false
  | some x, some y => x < y

/-- One step of the iterator inside
`check_if_sliding_window_condition_is_met`: evaluate the shrunk sort
expression on the (one-row) latest build intermediate batch, short-circuit
to `false` on null, otherwise compare against the interval bound according
to the sort direction. -/
def evalShrunkExpr (latestBatch : Batch) (sortedShrunkExpr : PhysicalSortExpr)
    (interval : Interval) : Except String Bool :=
  match latestBatch.head? with
  | none => .error "index out of bounds"
  | some row =>
    match sortedShrunkExpr.expr row with
    | .error e => .error e
    | .ok latestValue =>
      if latestValue = none then .ok false
      else
        .ok (if sortedShrunkExpr.options.descending then
            scalarLt latestValue interval.lower.value
          else
            scalarLt interval.upper.value latestValue)

/-- The `collect::<Result<Vec<bool>>>` of
`check_if_sliding_window_condition_is_met`. -/
def collectConditionResults (latestBatch : Batch) :
    List (PhysicalSortExpr × Interval) → Except String (List Bool)
  | [] => .ok []
  | (sortedShrunkExpr, interval) :: rest =>
    match evalShrunkExpr latestBatch sortedShrunkExpr interval with
    | .error e => .error e
    | .ok b =>
      match collectConditionResults latestBatch rest with
      | .error e => .error e
      | .ok bs => .ok (b :: bs)

/-- `check_if_sliding_window_condition_is_met(filter, incoming_build_batch,
intervals)`. -/
def checkIfSlidingWindowConditionIsMet (filter : JoinFilter)
    (incomingBuildBatch : Batch)
    (intervals : List (PhysicalSortExpr × Interval)) : Except String Bool :=
  let latestBuildIntermediateBatch := getFilterRepresentationOfBuildSide
    filter
    (batchSlice incomingBuildBatch (incomingBuildBatch.length - 1) 1)
    JoinSide.left
  match collectConditionResults latestBuildIntermediateBatch intervals with
  | .error e => .error e
  | .ok results => .ok (results.all (fun e => e))

theorem batchSlice_last (batch : Batch) (h : batch ≠ []) :
    batchSlice batch (batch.length - 1) 1 = [batch.getLast h] := by
  conv_lhs => rw [← List.dropLast_append_getLast h]
  rw [batchSlice]
  have hlen : (batch.dropLast ++ [batch.getLast h]).length - 1 =
      batch.dropLast.length := by
    simp
  rw [hlen, List.drop_left]
  rfl

theorem batchSlice_head (batch : Batch) (h : batch ≠ []) :
    batchSlice batch 0 1 = [batch.head h] := by
  cases batch with
  | nil => exact absurd rfl h
  | cons r rest => rfl

/-- `evalShrunkExpr` returns `true` exactly on a non-null value beating the
relevant interval bound. -/
theorem evalShrunkExpr_iff (row : Row) (se : PhysicalSortExpr)
    (iv : Interval) (b : Bool) (hok : evalShrunkExpr [row] se iv = .ok b) :
    (b = true ↔ ∃ v : Int, se.expr row = .ok (some v) ∧
      (if se.options.descending then
        scalarLt (some v) iv.lower.value = true
      else
        scalarLt iv.upper.value (some v) = true)) := by
  rw [evalShrunkExpr] at hok
  simp only [List.head?_cons] at hok
  rcases he : se.expr row with e | val <;> rw [he] at hok
  · change Except.error e = Except.ok b at hok
    cases hok
  · rcases val with _ | v
    · change Except.ok false = Except.ok b at hok
      cases Except.ok.inj hok
      constructor
      · intro hb
        cases hb
      · rintro ⟨v, hv, -⟩
        simp at hv
    · change Except.ok (if se.options.descending = true then
          scalarLt (some v) iv.lower.value
        else scalarLt iv.upper.value (some v)) = Except.ok b at hok
      cases Except.ok.inj hok
      constructor
      · intro hb
        refine ⟨v, rfl, ?_⟩
        by_cases hd : se.options.descending = true
        · rw [if_pos hd] at hb
          rw [if_pos hd]
          exact hb
        · rw [if_neg hd] at hb
          rw [if_neg hd]
          exact hb
      · rintro ⟨v', hv', hcond⟩
        cases Option.some.inj (Except.ok.inj hv')
        by_cases hd : se.options.descending = true
        · rw [if_pos hd] at hcond ⊢
          exact hcond
        · rw [if_neg hd] at hcond ⊢
          exact hcond

/-- `collectConditionResults` on a one-row latest batch: the conjunction of
the collected booleans holds iff every pair passes its bound check. -/
theorem collectConditionResults_all (row : Row)
    (intervals : List (PhysicalSortExpr × Interval)) :
    ∀ results : List Bool,
    collectConditionResults [row] intervals = .ok results →
    (results.all (fun e => e) = true ↔
      ∀ p ∈ intervals, ∃ v : Int, p.1.expr row = .ok (some v) ∧
        (if p.1.options.descending then
          scalarLt (some v) p.2.lower.value = true
        else
          scalarLt p.2.upper.value (some v) = true)) := by
  induction intervals with
  | nil =>
    intro results hok
    cases hok
    simp
  | cons p rest ih =>
    intro results hok
    obtain ⟨se, iv⟩ := p
    rw [collectConditionResults] at hok
    rcases he : evalShrunkExpr [row] se iv with e | b
    · rw [he] at hok; cases hok
    · rw [he] at hok
      rcases hr : collectConditionResults [row] rest with e | bs
      · rw [hr] at hok; cases hok
      · rw [hr] at hok
        cases hok
        rw [List.all_cons]
        constructor
        · intro hall
          have hb : b = true := by
            cases b
            · simp at hall
            · rfl
          have hbs : bs.all (fun e => e) = true := by
            cases hb; simpa using hall
          intro q hq
          rcases List.mem_cons.mp hq with hq1 | hq1
          · subst hq1
            exact (evalShrunkExpr_iff row se iv b he).mp hb
          · exact ((ih bs hr).mp hbs) q hq1
        · intro hfor
          have hb : b = true :=
            (evalShrunkExpr_iff row se iv b he).mpr
              (hfor (se, iv) (List.mem_cons_self _ _))
          have hbs : bs.all (fun e => e) = true :=
            (ih bs hr).mpr (fun q hq => hfor q (List.mem_cons_of_mem _ hq))
          rw [hb, hbs]
          rfl

/-- C3: for a non-empty incoming build batch,
`check_if_sliding_window_condition_is_met` returns `true` iff every
`(sort-expression, interval)` pair evaluates on the (intermediate
representation of the) last batch row to a non-null value `v` with
`v < interval.lower` for descending sorts and `v > interval.upper` for
ascending sorts; a null value for any expression forces `false`. -/
theorem checkIfSlidingWindowConditionIsMet_iff (filter : JoinFilter)
    (incomingBuildBatch : Batch)
    (intervals : List (PhysicalSortExpr × Interval))
    (hne : incomingBuildBatch ≠ []) (b : Bool)
    (hok : checkIfSlidingWindowConditionIsMet filter incomingBuildBatch
        intervals = .ok b) :
    (b = true ↔
      ∀ p ∈ intervals, ∃ v : Int,
        p.1.expr
            (filterRepRow filter JoinSide.left
              (incomingBuildBatch.getLast hne)) = .ok (some v) ∧
        (if p.1.options.descending then
          scalarLt (some v) p.2.lower.value = true
        else
          scalarLt p.2.upper.value (some v) = true)) := by
  rw [checkIfSlidingWindowConditionIsMet, batchSlice_last _ hne] at hok
  rw [getFilterRepresentationOfBuildSide, List.map_singleton] at hok
  rcases hr : collectConditionResults
      [filterRepRow filter JoinSide.left (incomingBuildBatch.getLast hne)]
      intervals with e | results
  · rw [hr] at hok; cases hok
  · rw [hr] at hok
    cases hok
    exact collectConditionResults_all _ intervals results hr

/-- Witness for `checkIfSlidingWindowConditionIsMet_iff`: one ascending
pair whose latest value 5 exceeds the upper bound 3, on a one-row build
batch. -/
theorem checkIfSlidingWindowConditionIsMet_iff_witness :
    (true = true ↔
      ∀ p ∈ [(PhysicalSortExpr.mk (fun r => .ok (r.getD 0 none))
            (SortOptions.mk false false),
          Interval.new (IntervalBound.new (some 1) false)
            (IntervalBound.new (some 3) false))], ∃ v : Int,
        p.1.expr
            (filterRepRow (JoinFilter.mk [ColumnIndex.mk 0 JoinSide.left])
              JoinSide.left
              (([[some 5]] : Batch).getLast (by simp))) = .ok (some v) ∧
        (if p.1.options.descending then
          scalarLt (some v) p.2.lower.value = true
        else
          scalarLt p.2.upper.value (some v) = true)) :=
  checkIfSlidingWindowConditionIsMet_iff
    (JoinFilter.mk [ColumnIndex.mk 0 JoinSide.left]) [[some 5]]
    [(PhysicalSortExpr.mk (fun r => .ok (r.getD 0 none))
        (SortOptions.mk false false),
      Interval.new (IntervalBound.new (some 1) false)
        (IntervalBound.new (some 3) false))]
    (by simp) true rfl

/-- The `try_for_each` loop of `update_filter_expr_bounds` over the probe
side: evaluate each sorted filter expression on the (one-row) first and
last probe intermediate batches and set the interval ordered by the sort
direction, both endpoints carrying the `false` flag. -/
def updateProbeExprBounds (firstBatch lastBatch : Batch) :
    List SortedFilterExpr → Except String (List SortedFilterExpr)
  | [] => .ok []
  | sortedFilterExpr :: rest =>
    match firstBatch.head?, lastBatch.head? with
    | some firstRow, some lastRow =>
      match sortedFilterExpr.intermediateBatchFilterExpr firstRow with
      | .error e => .error e
      | .ok leftValue =>
        match sortedFilterExpr.intermediateBatchFilterExpr lastRow with
        | .error e => .error e
        | .ok rightValue =>
          let interval :=
            if sortedFilterExpr.order.descending then
              Interval.new (IntervalBound.new rightValue false)
                (IntervalBound.new leftValue false)
            else
              Interval.new (IntervalBound.new leftValue false)
                (IntervalBound.new rightValue false)
          match updateProbeExprBounds firstBatch lastBatch rest with
          | .error e => .error e
          | .ok rest2 => .ok (sortedFilterExpr.setInterval interval :: rest2)
    | _, _ => .error "index out of bounds"

/-- `update_filter_expr_bounds(filter, build_inner_buffer,
build_sorted_filter_exprs, probe_batch, probe_sorted_filter_exprs,
probe_side)`: sets a point-null interval (flag `true` on both endpoints) on
every build-side expression, then computes each probe-side interval from
the first and last probe rows.  The mutated slices are returned; the Rust
indexing `build_sorted_filter_exprs[0]` (for the datatype of the null
scalar) panics on an empty slice, modelled as an error. -/
def updateFilterExprBounds (filter : JoinFilter) (buildInnerBuffer : Batch)
    (buildSortedFilterExprs : List SortedFilterExpr) (probeBatch : Batch)
    (probeSortedFilterExprs : List SortedFilterExpr) (probeSide : JoinSide) :
    Except String (List SortedFilterExpr × List SortedFilterExpr) :=
  match buildSortedFilterExprs with
  | [] => .error "index out of bounds"
  | _ :: _ =>
    let nullInterval := Interval.new (IntervalBound.new none true)
      (IntervalBound.new none true)
    let newBuild := buildSortedFilterExprs.map
      (fun sfe => sfe.setInterval nullInterval)
    let firstProbeIntermediateBatch := getFilterRepresentationOfBuildSide
      filter (batchSlice probeBatch 0 1) probeSide
    let lastProbeIntermediateBatch := getFilterRepresentationOfBuildSide
      filter (batchSlice probeBatch (probeBatch.length - 1) 1) probeSide
    match updateProbeExprBounds firstProbeIntermediateBatch
        lastProbeIntermediateBatch probeSortedFilterExprs with
    | .error e => .error e
    | .ok newProbe => .ok (newBuild, newProbe)

/-- Elementwise description of a successful `updateProbeExprBounds` run on
one-row first/last batches. -/
theorem updateProbeExprBounds_forall (firstRow lastRow : Row) :
    ∀ (exprs out : List SortedFilterExpr),
    updateProbeExprBounds [firstRow] [lastRow] exprs = .ok out →
    List.Forall₂ (fun sfe sfe2 : SortedFilterExpr =>
      ∃ fv lv, sfe.intermediateBatchFilterExpr firstRow = .ok fv ∧
        sfe.intermediateBatchFilterExpr lastRow = .ok lv ∧
        sfe2 = sfe.setInterval
          (if sfe.order.descending then
            Interval.new (IntervalBound.new lv false)
              (IntervalBound.new fv false)
          else
            Interval.new (IntervalBound.new fv false)
              (IntervalBound.new lv false))) exprs out := by
  intro exprs
  induction exprs with
  | nil =>
    intro out hok
    cases hok
    exact List.Forall₂.nil
  | cons sfe rest ih =>
    intro out hok
    rw [updateProbeExprBounds] at hok
    simp only [List.head?_cons] at hok
    rcases h1 : sfe.intermediateBatchFilterExpr firstRow with e | fv <;>
      rw [h1] at hok
    · change Except.error e = Except.ok out at hok
      cases hok
    · rcases h2 : sfe.intermediateBatchFilterExpr lastRow with e | lv <;>
        rw [h2] at hok
      · change Except.error e = Except.ok out at hok
        cases hok
      · rcases h3 : updateProbeExprBounds [firstRow] [lastRow] rest
            with e | rest2 <;> rw [h3] at hok
        · change Except.error e = Except.ok out at hok
          cases hok
        · change Except.ok (sfe.setInterval
              (if sfe.order.descending = true then
                Interval.new (IntervalBound.new lv false)
                  (IntervalBound.new fv false)
              else
                Interval.new (IntervalBound.new fv false)
                  (IntervalBound.new lv false)) :: rest2) = Except.ok out
            at hok
          cases hok
          exact List.Forall₂.cons ⟨fv, lv, h1, h2, rfl⟩ (ih rest2 h3)

/-- C2: after `update_filter_expr_bounds` on a non-empty probe batch (with
at least one build-side expression), every probe-side `SortedFilterExpr`
carries the interval whose endpoints are exactly the values of its
intermediate-schema expression on row 0 and row N−1 of the probe batch,
ordered `[first, last]` for ascending and `[last, first]` for descending
sorts, both endpoints carrying the open (closed-exclusive, `false`)
flag. -/
theorem updateFilterExprBounds_intervals (filter : JoinFilter)
    (buildInnerBuffer : Batch)
    (buildSortedFilterExprs : List SortedFilterExpr) (probeBatch : Batch)
    (probeSortedFilterExprs : List SortedFilterExpr) (probeSide : JoinSide)
    (hne : probeBatch ≠ [])
    (newBuild newProbe : List SortedFilterExpr)
    (hok : updateFilterExprBounds filter buildInnerBuffer
        buildSortedFilterExprs probeBatch probeSortedFilterExprs probeSide =
      .ok (newBuild, newProbe)) :
    List.Forall₂ (fun sfe sfe2 : SortedFilterExpr =>
      ∃ fv lv,
        sfe.intermediateBatchFilterExpr
          (filterRepRow filter probeSide (probeBatch.head hne)) = .ok fv ∧
        sfe.intermediateBatchFilterExpr
          (filterRepRow filter probeSide (probeBatch.getLast hne)) = .ok lv ∧
        sfe2 = sfe.setInterval
          (if sfe.order.descending then
            Interval.new (IntervalBound.new lv false)
              (IntervalBound.new fv false)
          else
            Interval.new (IntervalBound.new fv false)
              (IntervalBound.new lv false)))
      probeSortedFilterExprs newProbe := by
  rw [updateFilterExprBounds.eq_def] at hok
  match buildSortedFilterExprs with
  | [] => cases hok
  | b0 :: brest =>
    simp only at hok
    rw [batchSlice_head probeBatch hne, batchSlice_last probeBatch hne] at hok
    rw [getFilterRepresentationOfBuildSide, getFilterRepresentationOfBuildSide,
      List.map_singleton, List.map_singleton] at hok
    rcases h3 : updateProbeExprBounds
        [filterRepRow filter probeSide (probeBatch.head hne)]
        [filterRepRow filter probeSide (probeBatch.getLast hne)]
        probeSortedFilterExprs with e | newProbe2 <;> rw [h3] at hok
    · change Except.error e = Except.ok (newBuild, newProbe) at hok
      cases hok
    · change Except.ok (_, newProbe2) = Except.ok (newBuild, newProbe) at hok
      cases hok
      exact updateProbeExprBounds_forall _ _ probeSortedFilterExprs _ h3

/-- Witness for `updateFilterExprBounds_intervals`: a two-row probe batch
with an ascending identity expression; its interval must become
`[3, 9]` with open endpoints. -/
theorem updateFilterExprBounds_intervals_witness :
    List.Forall₂ (fun sfe sfe2 : SortedFilterExpr =>
      ∃ fv lv,
        sfe.intermediateBatchFilterExpr
          (filterRepRow (JoinFilter.mk [ColumnIndex.mk 0 JoinSide.right])
            JoinSide.right
            (([[some 3], [some 9]] : Batch).head (by simp))) = .ok fv ∧
        sfe.intermediateBatchFilterExpr
          (filterRepRow (JoinFilter.mk [ColumnIndex.mk 0 JoinSide.right])
            JoinSide.right
            (([[some 3], [some 9]] : Batch).getLast (by simp))) = .ok lv ∧
        sfe2 = sfe.setInterval
          (if sfe.order.descending then
            Interval.new (IntervalBound.new lv false)
              (IntervalBound.new fv false)
          else
            Interval.new (IntervalBound.new fv false)
              (IntervalBound.new lv false)))
      [SortedFilterExpr.mk
        (PhysicalSortExpr.mk (fun r => .ok (r.getD 0 none))
          (SortOptions.mk false false))
        (fun r => .ok (r.getD 0 none))
        (Interval.new (IntervalBound.new none true) (IntervalBound.new none true))
        0]
      [(SortedFilterExpr.mk
          (PhysicalSortExpr.mk (fun r => .ok (r.getD 0 none))
            (SortOptions.mk false false))
          (fun r => .ok (r.getD 0 none))
          (Interval.new (IntervalBound.new none true)
            (IntervalBound.new none true))
          0).setInterval
        (Interval.new (IntervalBound.new (some 3) false)
          (IntervalBound.new (some 9) false))] :=
  updateFilterExprBounds_intervals
    (JoinFilter.mk [ColumnIndex.mk 0 JoinSide.right]) []
    [SortedFilterExpr.mk
      (PhysicalSortExpr.mk (fun r => .ok (r.getD 0 none))
        (SortOptions.mk false false))
      (fun r => .ok (r.getD 0 none))
      (Interval.new (IntervalBound.new none true) (IntervalBound.new none true))
      0]
    [[some 3], [some 9]]
    [SortedFilterExpr.mk
      (PhysicalSortExpr.mk (fun r => .ok (r.getD 0 none))
        (SortOptions.mk false false))
      (fun r => .ok (r.getD 0 none))
      (Interval.new (IntervalBound.new none true) (IntervalBound.new none true))
      0]
    JoinSide.right (by simp) _ _ rfl

/-- `update_filter_expr_interval(batch, sorted_exprs)`
(`stream_join_utils.rs`): evaluates each expression on the (one-row)
`batch` and installs a half-unbounded interval oriented by the sort
direction; `IntervalBound::make_unbounded` is the flagged null scalar
(§3 "Unbounded endpoints are represented by a flagged scalar"). -/
def updateFilterExprInterval (batch : Batch) :
    List SortedFilterExpr → Except String (List SortedFilterExpr)
  | [] => .ok []
  | sortedExpr :: rest =>
    match batch.head? with
    | none => .error "index out of bounds"
    | some row =>
      match sortedExpr.intermediateBatchFilterExpr row with
      | .error e => .error e
      | .ok value =>
        let unbounded := IntervalBound.new none true
        let interval :=
          if sortedExpr.order.descending then
            Interval.new unbounded (IntervalBound.new value false)
          else
            Interval.new (IntervalBound.new value false) unbounded
        match updateFilterExprInterval batch rest with
        | .error e => .error e
        | .ok rest2 => .ok (sortedExpr.setInterval interval :: rest2)

/-- `calculate_filter_expr_intervals(filter, build_input_buffer,
build_sorted_filter_exprs, probe_batch, probe_sorted_filter_exprs,
build_side)`: returns early when either side has no rows, otherwise
updates the build side from row 0 of the build buffer and the probe side
from the last probe row.  The mutated slices are returned. -/
def calculateFilterExprIntervals (filter : JoinFilter)
    (buildInputBuffer : Batch)
    (buildSortedFilterExprs : List SortedFilterExpr) (probeBatch : Batch)
    (probeSortedFilterExprs : List SortedFilterExpr) (buildSide : JoinSide) :
    Except String (List SortedFilterExpr × List SortedFilterExpr) :=
  if buildInputBuffer.length = 0 ∨ probeBatch.length = 0 then
    .ok (buildSortedFilterExprs, probeSortedFilterExprs)
  else
    let buildIntermediateBatch := getFilterRepresentationOfBuildSide filter
      (batchSlice buildInputBuffer 0 1) buildSide
    match updateFilterExprInterval buildIntermediateBatch
        buildSortedFilterExprs with
    | .error e => .error e
    | .ok buildExprs2 =>
      let probeIntermediateBatch := getFilterRepresentationOfBuildSide filter
        (batchSlice probeBatch (probeBatch.length - 1) 1) buildSide.negate
      match updateFilterExprInterval probeIntermediateBatch
          probeSortedFilterExprs with
      | .error e => .error e
      | .ok probeExprs2 => .ok (buildExprs2, probeExprs2)

/-- C10: when the build input buffer or the probe batch has zero rows,
`calculate_filter_expr_intervals` returns `Ok` and leaves every build-side
and probe-side `SortedFilterExpr` (in particular every interval)
unchanged. -/
theorem calculateFilterExprIntervals_empty_frame (filter : JoinFilter)
    (buildInputBuffer : Batch)
    (buildSortedFilterExprs : List SortedFilterExpr) (probeBatch : Batch)
    (probeSortedFilterExprs : List SortedFilterExpr) (buildSide : JoinSide)
    (h : buildInputBuffer.length = 0 ∨ probeBatch.length = 0) :
    calculateFilterExprIntervals filter buildInputBuffer
        buildSortedFilterExprs probeBatch probeSortedFilterExprs buildSide =
      .ok (buildSortedFilterExprs, probeSortedFilterExprs) := by
  rw [calculateFilterExprIntervals, if_pos h]

/-- Witness for `calculateFilterExprIntervals_empty_frame`: an empty build
buffer, a non-empty probe batch and one expression per side. -/
theorem calculateFilterExprIntervals_empty_frame_witness :
    calculateFilterExprIntervals (JoinFilter.mk [ColumnIndex.mk 0 JoinSide.left])
        ([] : Batch)
        [SortedFilterExpr.mk
          (PhysicalSortExpr.mk (fun r => .ok (r.getD 0 none))
            (SortOptions.mk false false))
          (fun r => .ok (r.getD 0 none))
          (Interval.new (IntervalBound.new (some 4) false)
            (IntervalBound.new (some 8) false))
          0]
        [[some 1]]
        [SortedFilterExpr.mk
          (PhysicalSortExpr.mk (fun r => .ok (r.getD 0 none))
            (SortOptions.mk true false))
          (fun r => .ok (r.getD 0 none))
          (Interval.new (IntervalBound.new none true)
            (IntervalBound.new none true))
          1]
        JoinSide.left =
      .ok ([SortedFilterExpr.mk
          (PhysicalSortExpr.mk (fun r => .ok (r.getD 0 none))
            (SortOptions.mk false false))
          (fun r => .ok (r.getD 0 none))
          (Interval.new (IntervalBound.new (some 4) false)
            (IntervalBound.new (some 8) false))
          0],
        [SortedFilterExpr.mk
          (PhysicalSortExpr.mk (fun r => .ok (r.getD 0 none))
            (SortOptions.mk true false))
          (fun r => .ok (r.getD 0 none))
          (Interval.new (IntervalBound.new none true)
            (IntervalBound.new none true))
          1]) :=
  calculateFilterExprIntervals_empty_frame
    (JoinFilter.mk [ColumnIndex.mk 0 JoinSide.left]) [] _ [[some 1]] _
    JoinSide.left (Or.inl rfl)

/-! ## Part 5: the rewrite-cycle driver
(`optimizer/src/rewrite_cycle.rs`)

A `TreeNodeRewriter` together with `TreeNode::rewrite` is modelled by its
overall effect: a fallible function from a node to the transformed node
and the `Transformed.transformed` flag.  The user closure of `each_cycle`,
which chains `state.rewrite(r1)?.rewrite(r2)...` over a fixed sequence of
rewriters (the usage in all the crate's tests and docs), is modelled by
that sequence; the `?` operator on `ControlFlow` short-circuits `Break`. -/

/-- The effect of `TreeNode::rewrite(rewriter)`: the rewritten node and
whether anything was transformed. -/
abbrev Rewriter (Node : Type) := Node → Except String (Node × Bool)

/-- `ControlFlow<Result<T>, T>` (`RewriteCycleControlFlow<T>`). -/
inductive RewriteCycleControlFlow (T : Type) where
  | brk (result : Except String T)
  | cont (state : T)

/-- `RewriteCycleState`. -/
structure RewriteCycleState (Node : Type) where
  node : Node
  consecutiveUnchangedCount : Nat
  rewriteCount : Nat
  cycleLength : Option Nat

/-- `RewriteCycleState::new(node)`. -/
def RewriteCycleState.new (node : Node) : RewriteCycleState Node :=
  ⟨node, 0, 0, none⟩

/-- `RewriteCycleState::record_cycle_length()`. -/
def RewriteCycleState.recordCycleLength (s : RewriteCycleState Node) :
    RewriteCycleState Node :=
  { s with cycleLength := some s.rewriteCount }

/-- `RewriteCycleState::is_done()`. -/
def RewriteCycleState.isDone (s : RewriteCycleState Node) : Bool :=
  match s.cycleLength with
  | none => false
  | some cycleLength => cycleLength ≤ s.consecutiveUnchangedCount

/-- `RewriteCycleInfo`. -/
structure RewriteCycleInfo where
  totalIterations : Nat
  cycleLength : Nat
deriving DecidableEq, Repr

/-- `RewriteCycleInfo::completed_cycles()` (integer division, as in the
source). -/
def RewriteCycleInfo.completedCycles (info : RewriteCycleInfo) : Nat :=
  info.totalIterations / info.cycleLength

/-- `RewriteCycleState::finish()`. -/
def RewriteCycleState.finish (s : RewriteCycleState Node) :
    Node × RewriteCycleInfo :=
  (s.node, ⟨s.rewriteCount, s.cycleLength.getD s.rewriteCount⟩)

/-- The state mutation performed by a successful `TreeNode::rewrite` call
inside `RewriteCycleState::rewrite`: install the new node, bump the
iteration count, and reset or bump the consecutive-unchanged count
according to the `transformed` flag. -/
def stepState (s : RewriteCycleState Node) (node : Node)
    (transformed : Bool) : RewriteCycleState Node :=
  { s with
    node := node
    rewriteCount := s.rewriteCount + 1
    consecutiveUnchangedCount :=
      if transformed then 0 else s.consecutiveUnchangedCount + 1 }

/-- `RewriteCycleState::rewrite(rewriter)`. -/
def RewriteCycleState.rewrite (s : RewriteCycleState Node)
    (rewriter : Rewriter Node) :
    RewriteCycleControlFlow (RewriteCycleState Node) :=
  match rewriter s.node with
  | .error e => .brk (.error e)
  | .ok (node, transformed) =>
    let s2 := stepState s node transformed
    if s2.isDone then .brk (.ok s2) else .cont s2

/-- The user closure: one cycle chains `rewrite` over the rewriter
sequence, `?` propagating any `Break`. -/
def runCycle (s : RewriteCycleState Node) :
    List (Rewriter Node) → RewriteCycleControlFlow (RewriteCycleState Node)
  | [] => .cont s
  | rewriter :: rest =>
    match s.rewrite rewriter with
    | .brk result => .brk result
    | .cont s2 => runCycle s2 rest

/-- The `(1..max_cycles).try_fold(state, |state, _| f(state))` loop. -/
def foldCycles (rewriters : List (Rewriter Node)) :
    Nat → RewriteCycleState Node →
    RewriteCycleControlFlow (RewriteCycleState Node)
  | 0, s => .cont s
  | n + 1, s =>
    match runCycle s rewriters with
    | .brk result => .brk result
    | .cont s2 => foldCycles rewriters n s2

/-- `RewriteCycle::each_cycle(node, f)` with `max_cycles`, the closure `f`
given by the rewriter sequence. -/
def eachCycle (maxCycles : Nat) (rewriters : List (Rewriter Node))
    (node : Node) : Except String (Node × RewriteCycleInfo) :=
  if maxCycles = 0 then .ok (RewriteCycleState.new node).finish
  else
    match runCycle (RewriteCycleState.new node) rewriters with
    | .brk result => result.map RewriteCycleState.finish
    | .cont state1 =>
      if state1.recordCycleLength.isDone then
        .ok state1.recordCycleLength.finish
      else
        match foldCycles rewriters (maxCycles - 1)
            state1.recordCycleLength with
        | .brk result => result.map RewriteCycleState.finish
        | .cont state3 => .ok state3.finish

/-- One `rewrite` step increments the iteration count and keeps the
recorded cycle length, whether it continues or breaks with `Ok`. -/
theorem rewrite_step_count (s : RewriteCycleState Node) (r : Rewriter Node)
    (s' : RewriteCycleState Node)
    (h : s.rewrite r = .cont s' ∨ s.rewrite r = .brk (.ok s')) :
    s'.rewriteCount = s.rewriteCount + 1 ∧ s'.cycleLength = s.cycleLength := by
  rcases hr : r s.node with e | ⟨nd, tr⟩
  · have hrw : s.rewrite r = .brk (.error e) := by
      rw [RewriteCycleState.rewrite, hr]
    rcases h with h | h <;> rw [hrw] at h <;> cases h
  · have hrw : s.rewrite r =
        if (stepState s nd tr).isDone then .brk (.ok (stepState s nd tr))
        else .cont (stepState s nd tr) := by
      rw [RewriteCycleState.rewrite, hr]
    by_cases hd : (stepState s nd tr).isDone = true
    · rw [if_pos hd] at hrw
      rcases h with h | h <;> rw [hrw] at h <;> cases h
      exact ⟨rfl, rfl⟩
    · rw [if_neg hd] at hrw
      rcases h with h | h <;> rw [hrw] at h <;> cases h
      exact ⟨rfl, rfl⟩

/-- A `rewrite` step on a state not yet past its first cycle
(`cycle_length` unset) never breaks with `Ok`. -/
theorem rewrite_none_no_brk_ok (s : RewriteCycleState Node) (r : Rewriter Node)
    (hcl : s.cycleLength = none) (res : Except String (RewriteCycleState Node))
    (h : s.rewrite r = .brk res) : ∃ e, res = .error e := by
  rcases hr : r s.node with e | ⟨nd, tr⟩
  · have hrw : s.rewrite r = .brk (.error e) := by
      rw [RewriteCycleState.rewrite, hr]
    rw [hrw] at h
    cases h
    exact ⟨e, rfl⟩
  · have hd : (stepState s nd tr).isDone = false := by
      rw [RewriteCycleState.isDone]
      rw [show (stepState s nd tr).cycleLength = s.cycleLength from rfl, hcl]
    have hrw : s.rewrite r = .cont (stepState s nd tr) := by
      rw [RewriteCycleState.rewrite, hr]
      show (if (stepState s nd tr).isDone then
          RewriteCycleControlFlow.brk (Except.ok (stepState s nd tr))
        else RewriteCycleControlFlow.cont (stepState s nd tr)) =
        RewriteCycleControlFlow.cont (stepState s nd tr)
      rw [hd]
      simp
    rw [hrw] at h
    cases h

/-- A full no-break cycle performs exactly one `rewrite` per rewriter. -/
theorem runCycle_cont_count (rewriters : List (Rewriter Node)) :
    ∀ (s s' : RewriteCycleState Node), runCycle s rewriters = .cont s' →
    s'.rewriteCount = s.rewriteCount + rewriters.length ∧
    s'.cycleLength = s.cycleLength := by
  induction rewriters with
  | nil =>
    intro s s' h
    cases h
    exact ⟨by simp, rfl⟩
  | cons r rest ih =>
    intro s s' h
    rcases hrw : s.rewrite r with res | s2 <;> rw [runCycle, hrw] at h
    · cases h
    · obtain ⟨h1, h2⟩ := rewrite_step_count s r s2 (Or.inl hrw)
      obtain ⟨h3, h4⟩ := ih s2 s' h
      refine ⟨?_, h4.trans h2⟩
      rw [h3, h1, List.length_cons]
      omega

/-- A cycle that breaks with `Ok` has performed at most one `rewrite` per
rewriter. -/
theorem runCycle_brk_ok_count (rewriters : List (Rewriter Node)) :
    ∀ (s s' : RewriteCycleState Node),
    runCycle s rewriters = .brk (.ok s') →
    s'.rewriteCount ≤ s.rewriteCount + rewriters.length ∧
    s'.cycleLength = s.cycleLength := by
  induction rewriters with
  | nil =>
    intro s s' h
    cases h
  | cons r rest ih =>
    intro s s' h
    rcases hrw : s.rewrite r with res | s2 <;> rw [runCycle, hrw] at h
    · cases h
      obtain ⟨h1, h2⟩ := rewrite_step_count s r s' (Or.inr hrw)
      exact ⟨by rw [h1, List.length_cons]; omega, h2⟩
    · obtain ⟨h1, h2⟩ := rewrite_step_count s r s2 (Or.inl hrw)
      obtain ⟨h3, h4⟩ := ih s2 s' h
      refine ⟨?_, h4.trans h2⟩
      rw [List.length_cons]
      omega

/-- A cycle run on a state with `cycle_length` unset (the first cycle)
never breaks with `Ok`. -/
theorem runCycle_none_no_brk_ok (rewriters : List (Rewriter Node)) :
    ∀ (s : RewriteCycleState Node), s.cycleLength = none →
    ∀ res, runCycle s rewriters = .brk res → ∃ e, res = .error e := by
  induction rewriters with
  | nil =>
    intro s _ res h
    cases h
  | cons r rest ih =>
    intro s hcl res h
    rcases hrw : s.rewrite r with res2 | s2 <;> rw [runCycle, hrw] at h
    · cases h
      exact rewrite_none_no_brk_ok s r hcl res hrw
    · have hcl2 : s2.cycleLength = none := by
        obtain ⟨-, h2⟩ := rewrite_step_count s r s2 (Or.inl hrw)
        rw [h2, hcl]
      exact ih s2 hcl2 res h

/-- `foldCycles` over `n` cycles performs at most `n` rewrites per
rewriter and keeps the recorded cycle length. -/
theorem foldCycles_count (rewriters : List (Rewriter Node)) :
    ∀ (n : Nat) (s s' : RewriteCycleState Node),
    (foldCycles rewriters n s = .cont s' ∨
      foldCycles rewriters n s = .brk (.ok s')) →
    s'.rewriteCount ≤ s.rewriteCount + n * rewriters.length ∧
    s'.cycleLength = s.cycleLength := by
  intro n
  induction n with
  | zero =>
    intro s s' h
    rcases h with h | h <;> rw [foldCycles] at h <;> cases h
    exact ⟨by simp, rfl⟩
  | succ n ihn =>
    intro s s' h
    rcases hrc : runCycle s rewriters with res | s2
    · rcases h with h | h <;> rw [foldCycles, hrc] at h <;> cases h
      obtain ⟨h1, h2⟩ := runCycle_brk_ok_count rewriters s s' hrc
      refine ⟨le_trans h1 (Nat.add_le_add_left ?_ _), h2⟩
      rw [Nat.succ_mul]
      exact Nat.le_add_left _ _
    · have h23 :
          s'.rewriteCount ≤ s2.rewriteCount + n * rewriters.length ∧
          s'.cycleLength = s2.cycleLength := by
        rcases h with h | h <;> rw [foldCycles, hrc] at h
        · exact ihn s2 s' (Or.inl h)
        · exact ihn s2 s' (Or.inr h)
      obtain ⟨h1, h2⟩ := runCycle_cont_count rewriters s s2 hrc
      refine ⟨?_, h23.2.trans h2⟩
      calc s'.rewriteCount ≤ s2.rewriteCount + n * rewriters.length :=
            h23.1
        _ = s.rewriteCount + rewriters.length + n * rewriters.length := by
            rw [h1]
        _ = s.rewriteCount + (n + 1) * rewriters.length := by
            rw [Nat.succ_mul, Nat.add_assoc, Nat.add_comm rewriters.length]

/-- A cycle in which every rewriter reports "no change" leaves the node
untouched, adds one iteration per rewriter, and keeps `cycle_length`
unset. -/
theorem runCycle_noChange (rewriters : List (Rewriter Node))
    (hall : ∀ r ∈ rewriters, ∀ n, r n = .ok (n, false)) :
    ∀ (node : Node) (c m : Nat),
    runCycle (RewriteCycleState.mk node c m none) rewriters =
      .cont (RewriteCycleState.mk node (c + rewriters.length)
        (m + rewriters.length) none) := by
  induction rewriters with
  | nil =>
    intro node c m
    simp [runCycle]
  | cons r rest ih =>
    intro node c m
    have hr := hall r (List.mem_cons_self _ _) node
    have hrw : (RewriteCycleState.mk node c m none).rewrite r =
        .cont (RewriteCycleState.mk node (c + 1) (m + 1) none) := by
      rw [RewriteCycleState.rewrite]
      rw [show (RewriteCycleState.mk node c m none).node = node from rfl, hr]
      rfl
    rw [runCycle, hrw]
    have h1 : c + 1 + rest.length = c + (r :: rest).length := by
      rw [List.length_cons]; omega
    have h2 : m + 1 + rest.length = m + (r :: rest).length := by
      rw [List.length_cons]; omega
    rw [← h1, ← h2]
    exact ih (fun r2 hr2 => hall r2 (List.mem_cons_of_mem _ hr2)) node (c + 1) (m + 1)

/-- `each_cycle` when the first cycle breaks. -/
theorem eachCycle_eq_of_brk (maxCycles : Nat)
    (rewriters : List (Rewriter Node)) (node : Node)
    (res : Except String (RewriteCycleState Node)) (hmc : maxCycles ≠ 0)
    (hrc : runCycle (RewriteCycleState.new node) rewriters = .brk res) :
    eachCycle maxCycles rewriters node = res.map RewriteCycleState.finish := by
  rw [eachCycle, if_neg hmc, hrc]

/-- `each_cycle` when the first cycle runs to completion. -/
theorem eachCycle_eq_of_cont (maxCycles : Nat)
    (rewriters : List (Rewriter Node)) (node : Node)
    (s1 : RewriteCycleState Node) (hmc : maxCycles ≠ 0)
    (hrc : runCycle (RewriteCycleState.new node) rewriters = .cont s1) :
    eachCycle maxCycles rewriters node =
      if s1.recordCycleLength.isDone then .ok s1.recordCycleLength.finish
      else
        match foldCycles rewriters (maxCycles - 1) s1.recordCycleLength with
        | .brk result => result.map RewriteCycleState.finish
        | .cont state3 => .ok state3.finish := by
  rw [eachCycle, if_neg hmc, hrc]

theorem info_arith (info : RewriteCycleInfo) (hcl : 0 < info.cycleLength) :
    info.totalIterations = info.completedCycles * info.cycleLength +
      info.totalIterations % info.cycleLength ∧
    info.totalIterations % info.cycleLength < info.cycleLength := by
  constructor
  · rw [RewriteCycleInfo.completedCycles]
    conv_lhs =>
      rw [← Nat.div_add_mod info.totalIterations info.cycleLength]
    rw [Nat.mul_comm]
  · exact Nat.mod_lt _ hcl

theorem completed_le_of_le (total cl mc : Nat) (hcl : 0 < cl)
    (h : total ≤ mc * cl) : total / cl ≤ mc :=
  calc total / cl ≤ (mc * cl) / cl := Nat.div_le_div_right h
    _ = mc := Nat.mul_div_cancel _ hcl

/-- C9: (a) when every rewriter of a non-empty sequence reports "no
change", `each_cycle` (with at least one allowed cycle) returns the input
node and completes at least one cycle; (b) every successful run with a
positive recorded cycle length satisfies `completed_cycles ≤ max_cycles`
and the Euclidean decomposition `total_iterations = completed_cycles ×
cycle_length + remainder` with `remainder < cycle_length`. -/
theorem eachCycle_fixpoint_and_bound :
    (∀ (Node : Type) (node : Node) (rewriters : List (Rewriter Node))
      (maxCycles : Nat), 1 ≤ maxCycles → rewriters ≠ [] →
      (∀ r ∈ rewriters, ∀ n, r n = Except.ok (n, false)) →
      ∃ info, eachCycle maxCycles rewriters node = .ok (node, info) ∧
        1 ≤ info.completedCycles) ∧
    (∀ (Node : Type) (node nd : Node) (rewriters : List (Rewriter Node))
      (maxCycles : Nat) (info : RewriteCycleInfo),
      eachCycle maxCycles rewriters node = .ok (nd, info) →
      0 < info.cycleLength →
      info.completedCycles ≤ maxCycles ∧
      info.totalIterations = info.completedCycles * info.cycleLength +
        info.totalIterations % info.cycleLength ∧
      info.totalIterations % info.cycleLength < info.cycleLength) := by
  constructor
  · intro Node node rewriters mc hmc hne hall
    have hlen : 0 < rewriters.length := List.length_pos.mpr hne
    have hmc0 : mc ≠ 0 := by omega
    have hrun : runCycle (RewriteCycleState.new node) rewriters =
        .cont (RewriteCycleState.mk node (0 + rewriters.length)
          (0 + rewriters.length) none) :=
      runCycle_noChange rewriters hall node 0 0
    have hdone : (RewriteCycleState.mk node (0 + rewriters.length)
        (0 + rewriters.length) none).recordCycleLength.isDone = true := by
      simp [RewriteCycleState.recordCycleLength, RewriteCycleState.isDone]
    refine ⟨⟨rewriters.length, rewriters.length⟩, ?_, ?_⟩
    · rw [eachCycle_eq_of_cont mc rewriters node _ hmc0 hrun, if_pos hdone]
      simp [RewriteCycleState.recordCycleLength, RewriteCycleState.finish]
    · rw [RewriteCycleInfo.completedCycles]
      simp [Nat.div_self hlen]
  · intro Node node nd rewriters mc info hok hcl
    by_cases hmc0 : mc = 0
    · subst hmc0
      rw [eachCycle, if_pos rfl] at hok
      have hok2 : Except.ok ((node : Node), (⟨0, 0⟩ : RewriteCycleInfo)) =
          Except.ok (nd, info) := hok
      cases hok2
      exact absurd hcl (by decide)
    · rcases hrc : runCycle (RewriteCycleState.new node) rewriters
          with res | s1
      · rw [eachCycle_eq_of_brk mc rewriters node res hmc0 hrc] at hok
        obtain ⟨e, he⟩ := runCycle_none_no_brk_ok rewriters
          (RewriteCycleState.new node) rfl res hrc
        subst he
        simp [Except.map] at hok
      · obtain ⟨hs1count, -⟩ :=
          runCycle_cont_count rewriters (RewriteCycleState.new node) s1 hrc
        have hs1c : s1.rewriteCount = rewriters.length := by
          simpa [RewriteCycleState.new] using hs1count
        have heq := eachCycle_eq_of_cont mc rewriters node s1 hmc0 hrc
        by_cases hdone : s1.recordCycleLength.isDone = true
        · rw [heq, if_pos hdone] at hok
          have hok2 : Except.ok (s1.node,
              (⟨s1.rewriteCount, s1.rewriteCount⟩ : RewriteCycleInfo)) =
              Except.ok (nd, info) := hok
          cases hok2
          have hpos : 0 < s1.rewriteCount := hcl
          refine ⟨?_, (info_arith _ hcl).1, (info_arith _ hcl).2⟩
          show s1.rewriteCount / s1.rewriteCount ≤ mc
          rw [Nat.div_self hpos]
          omega
        · rw [heq, if_neg hdone] at hok
          have hfin : ∀ s3 : RewriteCycleState Node,
              (foldCycles rewriters (mc - 1) s1.recordCycleLength =
                  .cont s3 ∨
                foldCycles rewriters (mc - 1) s1.recordCycleLength =
                  .brk (.ok s3)) →
              (Except.ok (s3.node, (⟨s3.rewriteCount,
                  s3.cycleLength.getD s3.rewriteCount⟩ : RewriteCycleInfo)) :
                Except String (Node × RewriteCycleInfo)) =
                Except.ok (nd, info) →
              info.completedCycles ≤ mc ∧
              info.totalIterations = info.completedCycles *
                info.cycleLength +
                info.totalIterations % info.cycleLength ∧
              info.totalIterations % info.cycleLength < info.cycleLength := by
            intro s3 hor hok2
            obtain ⟨hb1, hb2⟩ :=
              foldCycles_count rewriters (mc - 1) s1.recordCycleLength s3 hor
            have hb2' : s3.cycleLength = some s1.rewriteCount := hb2
            have hgd : s3.cycleLength.getD s3.rewriteCount =
                s1.rewriteCount := by rw [hb2']; rfl
            cases hok2
            have hclpos : 0 < s1.rewriteCount := by
              rw [← hgd]; exact hcl
            refine ⟨?_, (info_arith _ hcl).1, (info_arith _ hcl).2⟩
            show s3.rewriteCount / (s3.cycleLength.getD s3.rewriteCount) ≤ mc
            rw [hgd]
            refine completed_le_of_le _ _ _ hclpos ?_
            have hb1' : s3.rewriteCount ≤ s1.rewriteCount +
                (mc - 1) * rewriters.length := hb1
            obtain ⟨k, rfl⟩ := Nat.exists_eq_succ_of_ne_zero hmc0
            rw [hs1c] at hb1' ⊢
            rw [Nat.succ_sub_one] at hb1'
            rw [Nat.succ_mul, Nat.add_comm (k * rewriters.length)]
            exact hb1'
          rcases hfold : foldCycles rewriters (mc - 1) s1.recordCycleLength
              with res | s3 <;> rw [hfold] at hok
          · rcases res with e | s3b
            · simp [Except.map] at hok
            · exact hfin s3b (Or.inr hfold) hok
          · exact hfin s3 (Or.inl hfold) hok

/-- Witness for `eachCycle_fixpoint_and_bound`: part (a) at a singleton
no-change rewriter over `Nat` with two allowed cycles; part (b) at a
singleton always-transforming rewriter with one allowed cycle. -/
theorem eachCycle_fixpoint_and_bound_witness :
    (∃ info, eachCycle 2 [fun n : Nat => Except.ok (n, false)] 5 =
        .ok (5, info) ∧ 1 ≤ info.completedCycles) ∧
    ((⟨1, 1⟩ : RewriteCycleInfo).completedCycles ≤ 1 ∧
      (⟨1, 1⟩ : RewriteCycleInfo).totalIterations =
        (⟨1, 1⟩ : RewriteCycleInfo).completedCycles *
          (⟨1, 1⟩ : RewriteCycleInfo).cycleLength +
        (⟨1, 1⟩ : RewriteCycleInfo).totalIterations %
          (⟨1, 1⟩ : RewriteCycleInfo).cycleLength ∧
      (⟨1, 1⟩ : RewriteCycleInfo).totalIterations %
          (⟨1, 1⟩ : RewriteCycleInfo).cycleLength <
        (⟨1, 1⟩ : RewriteCycleInfo).cycleLength) :=
  ⟨eachCycle_fixpoint_and_bound.1 Nat 5 [fun n => Except.ok (n, false)] 2
      (by norm_num) (by simp)
      (by
        intro r hr n
        rw [List.mem_singleton] at hr
        subst hr
        rfl),
    eachCycle_fixpoint_and_bound.2 Nat 0 0
      [fun n => Except.ok (n, true)] 1 ⟨1, 1⟩ rfl (by norm_num)⟩

end DataFusion
